import Mathlib

/-!
Verification of the BWIS_Digital_Signboard repository against its
natural-language specification.

The Python sources are shallowly embedded: each relevant function is
translated into an executable Lean definition over explicit data
(email messages become an inductive type, the XML stores become lists
of records, the images directory becomes an association list of
files).  Machine-level concerns that the claims do not touch (byte
decoding of MIME payloads, real wall-clock timestamps, the IMAP wire
protocol) are abstracted as parameters of the definitions.
-/

namespace Signboard

/-! ## Python string helpers

`isPySpace` is the whitespace class used both by the regex `\s` and by
`str.strip()` (ASCII subset; no character outside this set occurs in
the properties we prove). -/

def isPySpace (c : Char) : Bool :=
  c = ' ' || c = '\t' || c = '\n' || c = '\r' || c = '\x0b' || c = '\x0c'

/-- Python `str.strip()` on a list of characters. -/
def pyStrip (s : List Char) : List Char :=
  ((s.dropWhile isPySpace).reverse.dropWhile isPySpace).reverse

/-! ## `TextUpdateHandler._extract_update_content` (src/app/text_update.py)

The body is matched against the regex `Update:\s*"([^"]+)"` with
`re.search`; on a match, `group(1).strip()` is returned, otherwise
`None`.  `re.search` returns the match at the leftmost possible start
position; since `\s*` is followed by the literal `"` (not a whitespace
character) the match at a given position is deterministic:
consume the literal `Update:`, then the maximal run of whitespace,
then `"`, then a nonempty maximal run of non-quote characters, then
the closing `"`. -/

/-- Matching of the `"([^"]+)"` tail of the regex: an opening quote,
a nonempty run of non-quote characters (the capture), a closing
quote. -/
def matchQuote : List Char → Option (List Char)
  | '"' :: r =>
    match r.dropWhile (fun c => c ≠ '"') with
    | '"' :: _ =>
      if (r.takeWhile (fun c => c ≠ '"')).isEmpty then none
      else some (r.takeWhile (fun c => c ≠ '"'))
    | _ => none
  | _ => none

/-- Attempt to match `Update:\s*"([^"]+)"` at the start of `s`,
returning the captured group. -/
def matchUpdateAt (s : List Char) : Option (List Char) :=
  if ("Update:".toList).isPrefixOf s then
    matchQuote ((s.drop 7).dropWhile isPySpace)
  else none

/-- `re.search` of `Update:\s*"([^"]+)"`: try every start position
left to right. -/
def searchUpdate : List Char → Option (List Char)
  | [] => none
  | c :: t =>
    match matchUpdateAt (c :: t) with
    | some x => some x
    | none => searchUpdate t

/-- An email message as seen by the handlers: either a single payload,
or a multipart message whose parts are (content-type, decoded payload)
pairs in `walk()` order. -/
inductive EmailMsg where
  | simple (payload : List Char)
  | multipart (parts : List (String × List Char))
deriving DecidableEq, Repr

/-- The decoded body used by `_extract_update_content`: the first
`text/plain` part of a multipart message, otherwise the single
payload.  A multipart message with no `text/plain` part leaves the
local variable `content` unbound in the Python code; the resulting
`UnboundLocalError` is caught and turned into `None`, which we model
as `none` here. -/
def decodedBody : EmailMsg → Option (List Char)
  | .simple p => some p
  | .multipart parts => (parts.find? (fun pr => pr.1 = "text/plain")).map Prod.snd

/-- `TextUpdateHandler._extract_update_content`: decode the body, fail
on empty content (`if not content`), then regex-search and strip. -/
def extractUpdateContent (m : EmailMsg) : Option (List Char) :=
  match decodedBody m with
  | none => none
  | some body => if body.isEmpty then none else (searchUpdate body).map pyStrip

/-- The spec's pattern: the body contains `Update:` followed by
optional whitespace and a double-quoted string with nonempty interior
`x` (no quote inside `x`). -/
def ContainsUpdatePattern (b : List Char) : Prop :=
  ∃ pre ws x suf, b = pre ++ "Update:".toList ++ ws ++ '"' :: (x ++ '"' :: suf)
    ∧ ws.all isPySpace ∧ x ≠ [] ∧ x.all (fun c => c ≠ '"')

/-! ### Lemmas about the matcher -/

theorem dropWhile_append_of_all {p : Char → Bool} {ws rest : List Char}
    (hws : ws.all p) (hrest : ∀ c l, rest = c :: l → p c = false) :
    (ws ++ rest).dropWhile p = rest := by
  induction ws with
  | nil =>
    cases rest with
    | nil => rfl
    | cons c l => simp [List.dropWhile_cons, hrest c l rfl]
  | cons a t ih =>
    simp only [List.all_cons, Bool.and_eq_true] at hws
    simp [List.dropWhile_cons, hws.1, ih hws.2]

theorem takeWhile_append_of_all {p : Char → Bool} {x r : List Char}
    (hx : x.all p) (hr : ∀ c l, r = c :: l → p c = false) :
    (x ++ r).takeWhile p = x ∧ (x ++ r).dropWhile p = r := by
  constructor
  · induction x with
    | nil =>
      cases r with
      | nil => rfl
      | cons c l => simp [List.takeWhile_cons, hr c l rfl]
    | cons a t ih =>
      simp only [List.all_cons, Bool.and_eq_true] at hx
      simp [List.takeWhile_cons, hx.1, ih hx.2]
  · exact dropWhile_append_of_all hx hr

/-- Completeness of the quote matcher. -/
theorem matchQuote_complete {x suf : List Char}
    (hx : x ≠ []) (hq : x.all (fun c => c ≠ '"')) :
    matchQuote ('"' :: (x ++ '"' :: suf)) = some x := by
  have h := takeWhile_append_of_all (x := x) (r := '"' :: suf) hq
    (by intro c l h; cases h; simp)
  unfold matchQuote
  simp only [h.1, h.2]
  simp [List.isEmpty_iff, hx]

/-- Soundness of the quote matcher. -/
theorem matchQuote_sound {t x : List Char} (h : matchQuote t = some x) :
    ∃ suf, t = '"' :: (x ++ '"' :: suf) ∧ x ≠ [] ∧ x.all (fun c => c ≠ '"') := by
  unfold matchQuote at h
  split at h
  next r =>
    split at h
    next r2 hd =>
      split at h
      next => exact absurd h (by simp)
      next hemp =>
        have hx : x = r.takeWhile (fun c => c ≠ '"') := (Option.some.inj h).symm
        refine ⟨r2, ?_, ?_, ?_⟩
        · rw [hx]
          congr 1
          conv_lhs => rw [← List.takeWhile_append_dropWhile
            (p := fun c => decide (c ≠ '"')) (l := r)]
          rw [hd]
        · rw [hx]
          intro hnil
          exact hemp (by rw [hnil]; rfl)
        · rw [hx]
          refine List.all_eq_true.mpr ?_
          intro c hc
          exact List.mem_takeWhile_imp (p := fun c => decide (c ≠ '"')) hc
    next => exact absurd h (by simp)
  next => exact absurd h (by simp)

/-- Completeness of the single-position matcher: on a decomposed
input it finds the capture. -/
theorem matchUpdateAt_complete {ws x s : List Char}
    (hws : ws.all isPySpace) (hx : x ≠ []) (hq : x.all (fun c => c ≠ '"')) :
    matchUpdateAt ("Update:".toList ++ ws ++ '"' :: (x ++ '"' :: s)) = some x := by
  have hpre : ("Update:".toList).isPrefixOf
      ("Update:".toList ++ ws ++ '"' :: (x ++ '"' :: s)) = true := by
    rw [List.isPrefixOf_iff_prefix, List.append_assoc]
    exact List.prefix_append _ _
  have h7 : ("Update:".toList).length = 7 := rfl
  have hdrop : ("Update:".toList ++ ws ++ '"' :: (x ++ '"' :: s)).drop 7
      = ws ++ '"' :: (x ++ '"' :: s) := by
    rw [List.append_assoc, ← h7, List.drop_left]
  have hws' : (ws ++ '"' :: (x ++ '"' :: s)).dropWhile isPySpace
      = '"' :: (x ++ '"' :: s) :=
    dropWhile_append_of_all hws (by intro c l h; cases h; rfl)
  unfold matchUpdateAt
  rw [hpre, hdrop, hws', if_pos rfl]
  exact matchQuote_complete hx hq

/-- Soundness of the single-position matcher: a successful match
yields a decomposition of the input. -/
theorem matchUpdateAt_sound {s x : List Char} (h : matchUpdateAt s = some x) :
    ∃ ws suf, s = "Update:".toList ++ ws ++ '"' :: (x ++ '"' :: suf)
      ∧ ws.all isPySpace ∧ x ≠ [] ∧ x.all (fun c => c ≠ '"') := by
  unfold matchUpdateAt at h
  split at h
  next hpre =>
    obtain ⟨suf, ht, hx, hq⟩ := matchQuote_sound h
    refine ⟨(s.drop 7).takeWhile isPySpace, suf, ?_, ?_, hx, hq⟩
    · obtain ⟨tail, htail⟩ := List.isPrefixOf_iff_prefix.mp hpre
      have h7 : ("Update:".toList).length = 7 := rfl
      have hdrop : s.drop 7 = tail := by
        rw [← htail, ← h7, List.drop_left]
      conv_lhs => rw [← htail, ← hdrop,
        ← List.takeWhile_append_dropWhile (p := isPySpace) (l := s.drop 7), ht]
      simp [List.append_assoc]
    · exact List.all_eq_true.mpr (fun c hc => List.mem_takeWhile_imp hc)
  next => exact absurd h (by simp)

/-- Soundness of the search: a hit decomposes the body. -/
theorem searchUpdate_sound {b x : List Char} (h : searchUpdate b = some x) :
    ∃ pre rest, b = pre ++ rest ∧ matchUpdateAt rest = some x := by
  induction b with
  | nil => exact absurd h (by simp [searchUpdate])
  | cons c t ih =>
    unfold searchUpdate at h
    match hm : matchUpdateAt (c :: t) with
    | some y =>
      rw [hm] at h
      exact ⟨[], c :: t, rfl, by rw [hm, ← h]⟩
    | none =>
      rw [hm] at h
      obtain ⟨pre, rest, heq, hmat⟩ := ih h
      exact ⟨c :: pre, rest, by rw [heq]; rfl, hmat⟩

/-- Completeness of the search: if the matcher succeeds somewhere, the
search succeeds. -/
theorem searchUpdate_complete {u r : List Char} {x : List Char}
    (h : matchUpdateAt r = some x) :
    (searchUpdate (u ++ r)).isSome := by
  induction u with
  | nil =>
    cases r with
    | nil => exact absurd h (by simp [matchUpdateAt])
    | cons c t => simp only [List.nil_append, searchUpdate, h, Option.isSome_some]
  | cons c t ih =>
    simp only [List.cons_append, searchUpdate]
    match hm : matchUpdateAt (c :: (t ++ r)) with
    | some y => simp
    | none => exact ih

theorem containsUpdatePattern_iff_searchSome (b : List Char) :
    ContainsUpdatePattern b ↔ (searchUpdate b).isSome := by
  constructor
  · rintro ⟨pre, ws, x, suf, hb, hws, hx, hq⟩
    have hm := matchUpdateAt_complete (s := suf) hws hx hq
    have hb' : b = pre ++ ("Update:".toList ++ ws ++ '"' :: (x ++ '"' :: suf)) := by
      rw [hb]
      simp [List.append_assoc]
    rw [hb']
    exact searchUpdate_complete (u := pre) hm
  · intro h
    obtain ⟨x, hx⟩ := Option.isSome_iff_exists.mp h
    obtain ⟨pre, rest, hb, hmat⟩ := searchUpdate_sound hx
    obtain ⟨ws, suf, hrest, hws, hne, hq⟩ := matchUpdateAt_sound hmat
    exact ⟨pre, ws, x, suf, by rw [hb, hrest]; simp, hws, hne, hq⟩

theorem extractUpdateContent_body_some {m : EmailMsg} {body : List Char}
    (hb : decodedBody m = some body) :
    extractUpdateContent m
      = if body.isEmpty then none else (searchUpdate body).map pyStrip := by
  unfold extractUpdateContent
  rw [hb]

theorem extractUpdateContent_body_none {m : EmailMsg}
    (hb : decodedBody m = none) : extractUpdateContent m = none := by
  unfold extractUpdateContent
  rw [hb]

/-- C1: for every raw email message whose decoded body (the first
text/plain part if the message is multipart, otherwise the single
payload) contains `Update:` followed by a double-quoted string with
interior `x`, `_extract_update_content` returns the interior of the
matched quoted string trimmed of leading and trailing whitespace; for
every message whose body lacks that pattern (or has no decodable
body), it returns `none` rather than raising. -/
theorem c1_extract_text_spec (m : EmailMsg) :
    (∀ t, extractUpdateContent m = some t →
      ∃ body pre ws x suf, decodedBody m = some body
        ∧ body = pre ++ "Update:".toList ++ ws ++ '"' :: (x ++ '"' :: suf)
        ∧ ws.all isPySpace ∧ x ≠ [] ∧ x.all (fun c => c ≠ '"')
        ∧ t = pyStrip x)
    ∧ (∀ body, decodedBody m = some body → ContainsUpdatePattern body →
        (extractUpdateContent m).isSome)
    ∧ (∀ body, decodedBody m = some body → ¬ ContainsUpdatePattern body →
        extractUpdateContent m = none)
    ∧ (decodedBody m = none → extractUpdateContent m = none) := by
  refine ⟨?_, ?_, ?_, ?_⟩
  · intro t ht
    match hb : decodedBody m with
    | none => rw [extractUpdateContent_body_none hb] at ht; exact absurd ht (by simp)
    | some body =>
      rw [extractUpdateContent_body_some hb] at ht
      by_cases hemp : body.isEmpty
      · rw [if_pos hemp] at ht; exact absurd ht (by simp)
      · rw [if_neg hemp] at ht
        obtain ⟨x, hsx, hmap⟩ := Option.map_eq_some'.mp ht
        obtain ⟨pre, rest, hbody, hmat⟩ := searchUpdate_sound hsx
        obtain ⟨ws, suf, hrest, hws, hxne, hxq⟩ := matchUpdateAt_sound hmat
        refine ⟨body, pre, ws, x, suf, rfl, ?_, hws, hxne, hxq, hmap.symm⟩
        rw [hbody, hrest]
        simp [List.append_assoc]
  · intro body hb hpat
    have hsome := (containsUpdatePattern_iff_searchSome body).mp hpat
    have hne : ¬ body.isEmpty := by
      obtain ⟨pre, ws, x, suf, hbody, _⟩ := hpat
      rw [List.isEmpty_iff, hbody]
      simp
    rw [extractUpdateContent_body_some hb, if_neg hne]
    simpa using hsome
  · intro body hb hpat
    have hnone : searchUpdate body = none := by
      match hs : searchUpdate body with
      | none => rfl
      | some x =>
        exact absurd ((containsUpdatePattern_iff_searchSome body).mpr (by rw [hs]; rfl)) hpat
    rw [extractUpdateContent_body_some hb]
    by_cases hemp : body.isEmpty
    · rw [if_pos hemp]
    · rw [if_neg hemp, hnone]
      rfl
  · intro hb
    exact extractUpdateContent_body_none hb

/-- Witness for C1 at a concrete message: the body
`Note Update: " hello  world "!` contains the pattern and extraction
returns `hello  world`. -/
theorem c1_extract_text_witness :
    ContainsUpdatePattern ("Note Update: \" hello  world \"!".toList)
      ∧ (extractUpdateContent
          (EmailMsg.simple ("Note Update: \" hello  world \"!".toList))).isSome
      ∧ extractUpdateContent
          (EmailMsg.simple ("Note Update: \" hello  world \"!".toList))
          = some ("hello  world".toList) := by
  have hpat : ContainsUpdatePattern ("Note Update: \" hello  world \"!".toList) :=
    ⟨"Note ".toList, [' '], " hello  world ".toList, ['!'],
      by decide, by decide, by decide, by decide⟩
  refine ⟨hpat, ?_, by decide⟩
  exact (c1_extract_text_spec _).2.1 _ rfl hpat

/-! ## The XML stores (src/app/text_update.py `_add_update_to_xml`,
src/app/card_update.py `_add_card_to_xml`)

A store file is embedded as the list of record elements under the XML
root, in document order.  `ET.SubElement(root, "update")` appends the
new element to the root *before* the id is computed, so
`len(root)` at id-generation time is the element count *including*
the new element: a store that held `K` records yields the id
`update{K+1}`.  The wall-clock timestamp is a parameter. -/

structure UpdateRecord where
  id : String
  content : String
  timestamp : String
  priority : String
  active : String
deriving DecidableEq, Repr

structure CardRecord where
  id : String
  title : String
  description : String
  image : String
  created_date : String
  active : String
deriving DecidableEq, Repr

/-- `TextUpdateHandler._add_update_to_xml` on a parsed store. -/
def addUpdateToXml (store : List UpdateRecord) (content timestamp : String) :
    List UpdateRecord :=
  store ++ [{ id := "update" ++ toString (store.length + 1), content := content,
              timestamp := timestamp, priority := "normal", active := "true" }]

/-- `CardUpdateHandler._add_card_to_xml` on a parsed store.  The title
is the fixed placeholder `"New Card"`. -/
def addCardToXml (store : List CardRecord) (content imageFilename createdDate : String) :
    List CardRecord :=
  store ++ [{ id := "card" ++ toString (store.length + 1), title := "New Card",
              description := content, image := imageFilename,
              created_date := createdDate, active := "true" }]

/-- The records produced by a run of appends starting at element
count `k`. -/
def numberedUpdates (ts : String) : Nat → List String → List UpdateRecord
  | _, [] => []
  | k, c :: cs =>
    { id := "update" ++ toString (k + 1), content := c, timestamp := ts,
      priority := "normal", active := "true" } :: numberedUpdates ts (k + 1) cs

def numberedCards (cd : String) : Nat → List (String × String) → List CardRecord
  | _, [] => []
  | k, p :: ps =>
    { id := "card" ++ toString (k + 1), title := "New Card", description := p.1,
      image := p.2, created_date := cd, active := "true" } :: numberedCards cd (k + 1) ps

theorem foldl_addUpdateToXml (ts : String) (contents : List String) :
    ∀ store : List UpdateRecord,
      contents.foldl (fun st c => addUpdateToXml st c ts) store
        = store ++ numberedUpdates ts store.length contents := by
  induction contents with
  | nil => intro store; simp [numberedUpdates]
  | cons c cs ih =>
    intro store
    simp only [List.foldl_cons, numberedUpdates]
    rw [ih (addUpdateToXml store c ts)]
    simp [addUpdateToXml, List.append_assoc]

theorem foldl_addCardToXml (cd : String) (cards : List (String × String)) :
    ∀ store : List CardRecord,
      cards.foldl (fun st p => addCardToXml st p.1 p.2 cd) store
        = store ++ numberedCards cd store.length cards := by
  induction cards with
  | nil => intro store; simp [numberedCards]
  | cons c cs ih =>
    intro store
    simp only [List.foldl_cons, numberedCards]
    rw [ih (addCardToXml store c.1 c.2 cd)]
    simp [addCardToXml, List.append_assoc]

theorem numberedUpdates_length (ts : String) :
    ∀ (k : Nat) (cs : List String), (numberedUpdates ts k cs).length = cs.length := by
  intro k cs
  induction cs generalizing k with
  | nil => rfl
  | cons c t ih => simp [numberedUpdates, ih]

theorem numberedCards_length (cd : String) :
    ∀ (k : Nat) (ps : List (String × String)),
      (numberedCards cd k ps).length = ps.length := by
  intro k ps
  induction ps generalizing k with
  | nil => rfl
  | cons c t ih => simp [numberedCards, ih]

theorem numberedUpdates_content (ts : String) :
    ∀ (k : Nat) (cs : List String),
      (numberedUpdates ts k cs).map UpdateRecord.content = cs := by
  intro k cs
  induction cs generalizing k with
  | nil => rfl
  | cons c t ih => simp [numberedUpdates, ih]

theorem numberedUpdates_get (ts : String) :
    ∀ (cs : List String) (k i : Nat) (h : i < (numberedUpdates ts k cs).length),
      ((numberedUpdates ts k cs).get ⟨i, h⟩).id = "update" ++ toString (k + i + 1) := by
  intro cs
  induction cs with
  | nil => intro k i h; exact absurd h (by simp [numberedUpdates])
  | cons c t ih =>
    intro k i h
    cases i with
    | zero => rfl
    | succ j =>
      have := ih (k + 1) j (by
        simp only [numberedUpdates, List.length_cons] at h
        omega)
      simp only [numberedUpdates, List.get_cons_succ]
      rw [this]
      congr 2
      omega

theorem numberedCards_get (cd : String) :
    ∀ (ps : List (String × String)) (k i : Nat) (h : i < (numberedCards cd k ps).length),
      ((numberedCards cd k ps).get ⟨i, h⟩).id = "card" ++ toString (k + i + 1) := by
  intro ps
  induction ps with
  | nil => intro k i h; exact absurd h (by simp [numberedCards])
  | cons c t ih =>
    intro k i h
    cases i with
    | zero => rfl
    | succ j =>
      have := ih (k + 1) j (by
        simp only [numberedCards, List.length_cons] at h
        omega)
      simp only [numberedCards, List.get_cons_succ]
      rw [this]
      congr 2
      omega

/-- C2 counterexample: a single append to an empty store produces the
id `update1` (resp. `card1`), not `update0` (resp. `card0`): the
Python code computes `len(root)` after `ET.SubElement` has already
attached the new element. -/
theorem c2_counterexample :
    (addUpdateToXml [] "Lunch at noon" "2024-01-01 12:00:00").map UpdateRecord.id
        = ["update1"]
    ∧ (addUpdateToXml [] "Lunch at noon" "2024-01-01 12:00:00").map UpdateRecord.id
        ≠ ["update0"]
    ∧ (addCardToXml [] "New safety poster" "poster.png" "2024-01-01").map CardRecord.id
        = ["card1"]
    ∧ (addCardToXml [] "New safety poster" "poster.png" "2024-01-01").map CardRecord.id
        ≠ ["card0"] := by
  refine ⟨rfl, ?_, rfl, ?_⟩ <;> decide

/-- C2 (amended): appending N records to an initially empty store and
reading it back yields exactly N records in insertion order, with
sequential identifiers derived from the element count at insertion
time, which includes the just-inserted element: record1 through
recordN. -/
theorem c2_append_sequential_ids (contents : List String) (ts : String)
    (cards : List (String × String)) (cd : String) :
    (contents.foldl (fun st c => addUpdateToXml st c ts) []).length = contents.length
    ∧ (contents.foldl (fun st c => addUpdateToXml st c ts) []).map
        UpdateRecord.content = contents
    ∧ (∀ i (h : i < (contents.foldl (fun st c => addUpdateToXml st c ts) []).length),
        ((contents.foldl (fun st c => addUpdateToXml st c ts) []).get ⟨i, h⟩).id
          = "update" ++ toString (i + 1))
    ∧ (cards.foldl (fun st p => addCardToXml st p.1 p.2 cd) []).length = cards.length
    ∧ (∀ i (h : i < (cards.foldl (fun st p => addCardToXml st p.1 p.2 cd) []).length),
        ((cards.foldl (fun st p => addCardToXml st p.1 p.2 cd) []).get ⟨i, h⟩).id
          = "card" ++ toString (i + 1)) := by
  have hu := foldl_addUpdateToXml ts contents []
  have hc := foldl_addCardToXml cd cards []
  simp only [List.nil_append, List.length_nil] at hu hc
  rw [hu, hc]
  refine ⟨numberedUpdates_length ts 0 contents, numberedUpdates_content ts 0 contents,
    ?_, numberedCards_length cd 0 cards, ?_⟩
  · intro i h
    have := numberedUpdates_get ts contents 0 i h
    rwa [Nat.zero_add] at this
  · intro i h
    have := numberedCards_get cd cards 0 i h
    rwa [Nat.zero_add] at this

/-- Witness for C2 at a concrete run of three appends. -/
theorem c2_append_sequential_ids_witness :
    (0 < (["a", "b", "c"].foldl
        (fun st c => addUpdateToXml st c "2024-01-01 00:00:00") []).length)
    ∧ ((["a", "b", "c"].foldl
        (fun st c => addUpdateToXml st c "2024-01-01 00:00:00") []).get
          ⟨0, by decide⟩).id = "update1" := by
  refine ⟨by decide, ?_⟩
  exact (c2_append_sequential_ids ["a", "b", "c"] "2024-01-01 00:00:00" [] "d").2.2.1
    0 (by decide)

/-- C9: appending never mutates existing records: the prior store is
an unchanged prefix, and exactly one record is appended at the end
with `active = "true"` (and `priority = "normal"` for updates,
placeholder title for cards). -/
theorem c9_append_frame (store : List UpdateRecord) (c ts : String)
    (cstore : List CardRecord) (d img cd : String) :
    (addUpdateToXml store c ts).take store.length = store
    ∧ (addUpdateToXml store c ts).length = store.length + 1
    ∧ (addUpdateToXml store c ts).getLast?
        = some { id := "update" ++ toString (store.length + 1), content := c,
                 timestamp := ts, priority := "normal", active := "true" }
    ∧ (addCardToXml cstore d img cd).take cstore.length = cstore
    ∧ (addCardToXml cstore d img cd).length = cstore.length + 1
    ∧ (addCardToXml cstore d img cd).getLast?
        = some { id := "card" ++ toString (cstore.length + 1), title := "New Card",
                 description := d, image := img, created_date := cd,
                 active := "true" } := by
  refine ⟨?_, by simp [addUpdateToXml], ?_, ?_, by simp [addCardToXml], ?_⟩
  · rw [addUpdateToXml, List.take_left]
  · rw [addUpdateToXml, List.getLast?_concat]
  · rw [addCardToXml, List.take_left]
  · rw [addCardToXml, List.getLast?_concat]

/-! ## `CardUpdateHandler._process_image_attachment` (src/app/card_update.py)

The attachment's declared filename is sanitized with
`Path(filename).name` (POSIX `pathlib` semantics: split on `/`, drop
empty and `.` components, take the last component or the empty
string), the payload is written to `images_dir / safe_filename`, and
`imghdr.what` is consulted post-write; on verification failure the
file is unlinked and the loop continues with the next part.

The images directory is embedded as an association list from file
name to content bytes.  `open(path, 'wb')` fails with
`IsADirectoryError` when the joined path resolves to a directory,
which happens exactly when the sanitized name is ``""``, ``"."`` or
``".."``; that exception is caught by the surrounding `try`, ending
the whole extraction with `None`.  `imghdr.what` is abstracted as a
predicate on the written bytes. -/

/-- Split a POSIX path on `/`. -/
def splitSlash : List Char → List (List Char)
  | [] => [[]]
  | c :: t =>
    if c = '/' then [] :: splitSlash t
    else
      match splitSlash t with
      | [] => [[c]]
      | p :: ps => (c :: p) :: ps

/-- The `parts` of a `pathlib.PurePosixPath` (root marker aside):
empty and `.` components are dropped. -/
def pathParts (s : List Char) : List (List Char) :=
  (splitSlash s).filter (fun p => !p.isEmpty && p ≠ ['.'])

/-- `pathlib.Path(s).name`: the last component, or empty. -/
def pathlibName (s : List Char) : List Char :=
  ((pathParts s).getLast?).getD []

/-- An attachment part: declared MIME maintype, declared filename
(`None` or a string), payload bytes. -/
structure MimePart where
  maintype : String
  filename : Option (List Char)
  payload : List Nat
deriving DecidableEq, Repr

/-- Writing `name` inside the images directory succeeds only when the
joined path is not the directory itself or a parent directory. -/
def writableName (n : List Char) : Bool :=
  !(n.isEmpty || n = ['.'] || n = ['.', '.']) && !(n.contains '/')

/-- Overwrite-or-create semantics of `open(path, 'wb')`. -/
def fsWrite (fs : List (List Char × List Nat)) (name : List Char) (bytes : List Nat) :
    List (List Char × List Nat) :=
  if fs.any (fun e => e.1 = name) then
    fs.map (fun e => if e.1 = name then (name, bytes) else e)
  else fs ++ [(name, bytes)]

/-- `Path.unlink`. -/
def fsDelete (fs : List (List Char × List Nat)) (name : List Char) :
    List (List Char × List Nat) :=
  fs.filter (fun e => e.1 ≠ name)

/-- `CardUpdateHandler._process_image_attachment`: walk the parts,
save the first image attachment with a usable filename, verify it and
return its sanitized name; on verification failure delete the file
and continue; on a write failure the surrounding `try` returns `None`
with the walk abandoned. -/
def processImageAttachment (imgOk : List Nat → Bool) :
    List MimePart → List (List Char × List Nat) →
      Option (List Char) × List (List Char × List Nat)
  | [], fs => (none, fs)
  | p :: rest, fs =>
    if p.maintype = "image" then
      match p.filename with
      | none => processImageAttachment imgOk rest fs
      | some fn =>
        if fn.isEmpty then processImageAttachment imgOk rest fs
        else
          let safe := pathlibName fn
          if writableName safe then
            let fs' := fsWrite fs safe p.payload
            if imgOk p.payload then (some safe, fs')
            else processImageAttachment imgOk rest (fsDelete fs' safe)
          else (none, fs)
    else processImageAttachment imgOk rest fs

theorem splitSlash_no_slash : ∀ (s : List Char), ∀ l ∈ splitSlash s, '/' ∉ l := by
  intro s
  induction s with
  | nil =>
    intro l hl
    simp only [splitSlash, List.mem_singleton] at hl
    simp [hl]
  | cons c t ih =>
    intro l hl
    unfold splitSlash at hl
    by_cases hc : c = '/'
    · rw [if_pos hc] at hl
      rcases List.mem_cons.mp hl with h | h
      · simp [h]
      · exact ih l h
    · rw [if_neg hc] at hl
      match hs : splitSlash t with
      | [] =>
        rw [hs] at hl
        simp only [List.mem_singleton] at hl
        subst hl
        simp only [List.mem_singleton]
        exact fun h => hc h.symm
      | p :: ps =>
        rw [hs] at hl
        rcases List.mem_cons.mp hl with h | h
        · subst h
          intro hmem
          rcases List.mem_cons.mp hmem with h | h
          · exact hc h.symm
          · exact ih p (hs ▸ List.mem_cons_self p ps) h
        · exact ih l (hs ▸ List.mem_cons.mpr (Or.inr h))

/-- The sanitized name never contains a path separator. -/
theorem pathlibName_no_slash (s : List Char) : '/' ∉ pathlibName s := by
  unfold pathlibName
  match h : (pathParts s).getLast? with
  | none => simp
  | some l =>
    have hmem : l ∈ pathParts s := List.mem_of_mem_getLast? h
    have hmem' : l ∈ splitSlash s := (List.mem_filter.mp hmem).1
    simpa using splitSlash_no_slash s l hmem'

/-- Unfolding equation for one step of the attachment walk. -/
theorem processImage_cons_eq (imgOk : List Nat → Bool) (mt : String)
    (fno : Option (List Char)) (pl : List Nat) (rest : List MimePart)
    (fs : List (List Char × List Nat)) :
    processImageAttachment imgOk (⟨mt, fno, pl⟩ :: rest) fs =
      if mt = "image" then
        match fno with
        | none => processImageAttachment imgOk rest fs
        | some fn =>
          if fn.isEmpty then processImageAttachment imgOk rest fs
          else if writableName (pathlibName fn) then
            (if imgOk pl then (some (pathlibName fn), fsWrite fs (pathlibName fn) pl)
             else processImageAttachment imgOk rest
               (fsDelete (fsWrite fs (pathlibName fn) pl) (pathlibName fn)))
          else (none, fs)
      else processImageAttachment imgOk rest fs := by
  rfl

theorem mem_fsWrite {fs : List (List Char × List Nat)} {name : List Char}
    {bytes : List Nat} {e : List Char × List Nat} (h : e ∈ fsWrite fs name bytes) :
    e.1 = name ∨ e.1 ∈ fs.map Prod.fst := by
  unfold fsWrite at h
  split at h
  · obtain ⟨a, ha, hfa⟩ := List.mem_map.mp h
    by_cases hn : a.1 = name
    · left
      rw [← hfa, if_pos hn]
    · right
      rw [← hfa, if_neg hn]
      exact List.mem_map.mpr ⟨a, ha, rfl⟩
  · rcases List.mem_append.mp h with h | h
    · exact Or.inr (List.mem_map.mpr ⟨e, h, rfl⟩)
    · left
      simp only [List.mem_singleton] at h
      rw [h]

theorem mem_fsDelete {fs : List (List Char × List Nat)} {name : List Char}
    {e : List Char × List Nat} (h : e ∈ fsDelete fs name) : e ∈ fs :=
  (List.mem_filter.mp h).1

theorem fsDelete_fsWrite_fresh {fs : List (List Char × List Nat)} {name : List Char}
    {bytes : List Nat} (h : ∀ e ∈ fs, e.1 ≠ name) :
    fsDelete (fsWrite fs name bytes) name = fs := by
  have hnot : fs.any (fun e => e.1 = name) = false := by
    rw [List.any_eq_false]
    intro e he
    simpa using h e he
  unfold fsWrite fsDelete
  rw [hnot]
  simp only [Bool.false_eq_true, if_false, List.filter_append]
  rw [List.filter_eq_self.mpr (fun e he => by simpa using h e he)]
  simp

/-- Every file present after the walk either already existed or is
named by the sanitized declared filename of one of the image parts
(and that name is a plain writable file name). -/
theorem processImage_names (imgOk : List Nat → Bool) :
    ∀ (parts : List MimePart) (fs : List (List Char × List Nat))
      (e : List Char × List Nat), e ∈ (processImageAttachment imgOk parts fs).2 →
      e.1 ∈ fs.map Prod.fst ∨
        ∃ p ∈ parts, p.maintype = "image" ∧ ∃ fn, p.filename = some fn ∧
          e.1 = pathlibName fn ∧ writableName (pathlibName fn) = true := by
  intro parts
  induction parts with
  | nil =>
    intro fs e he
    exact Or.inl (List.mem_map.mpr ⟨e, he, rfl⟩)
  | cons p rest ih =>
    intro fs e he
    obtain ⟨mt, fno, pl⟩ := p
    rw [processImage_cons_eq] at he
    by_cases hmt : mt = "image"
    · rw [if_pos hmt] at he
      match fno with
      | none =>
        rcases ih fs e he with h | ⟨q, hq, hrest⟩
        · exact Or.inl h
        · exact Or.inr ⟨q, List.mem_cons_of_mem _ hq, hrest⟩
      | some fn =>
        dsimp only at he
        by_cases hemp : fn.isEmpty
        · rw [if_pos hemp] at he
          rcases ih fs e he with h | ⟨q, hq, hrest⟩
          · exact Or.inl h
          · exact Or.inr ⟨q, List.mem_cons_of_mem _ hq, hrest⟩
        · rw [if_neg hemp] at he
          by_cases hw : writableName (pathlibName fn)
          · rw [if_pos hw] at he
            by_cases hok : imgOk pl
            · rw [if_pos hok] at he
              rcases mem_fsWrite he with h | h
              · exact Or.inr ⟨⟨mt, some fn, pl⟩, List.mem_cons_self _ _,
                  hmt, fn, rfl, h, hw⟩
              · exact Or.inl h
            · rw [if_neg hok] at he
              rcases ih _ e he with h | ⟨q, hq, hrest⟩
              · obtain ⟨a, ha, hfa⟩ := List.mem_map.mp h
                have ha' := mem_fsDelete ha
                rcases mem_fsWrite ha' with h' | h'
                · exact Or.inr ⟨⟨mt, some fn, pl⟩, List.mem_cons_self _ _,
                    hmt, fn, rfl, by rw [← hfa, h'], hw⟩
                · exact Or.inl (by rw [← hfa]; exact h')
              · exact Or.inr ⟨q, List.mem_cons_of_mem _ hq, hrest⟩
          · rw [if_neg hw] at he
            exact Or.inl (List.mem_map.mpr ⟨e, he, rfl⟩)
    · rw [if_neg hmt] at he
      rcases ih fs e he with h | ⟨q, hq, hrest⟩
      · exact Or.inl h
      · exact Or.inr ⟨q, List.mem_cons_of_mem _ hq, hrest⟩

/-- A returned filename is the sanitized name of a verified image
part. -/
theorem processImage_result (imgOk : List Nat → Bool) :
    ∀ (parts : List MimePart) (fs : List (List Char × List Nat)) (n : List Char),
      (processImageAttachment imgOk parts fs).1 = some n →
      ∃ p ∈ parts, p.maintype = "image" ∧ ∃ fn, p.filename = some fn ∧
        n = pathlibName fn ∧ writableName n = true ∧ imgOk p.payload = true := by
  intro parts
  induction parts with
  | nil =>
    intro fs n h
    exact absurd h (by simp [processImageAttachment])
  | cons p rest ih =>
    intro fs n h
    obtain ⟨mt, fno, pl⟩ := p
    rw [processImage_cons_eq] at h
    by_cases hmt : mt = "image"
    · rw [if_pos hmt] at h
      match fno with
      | none =>
        obtain ⟨q, hq, hrest⟩ := ih fs n h
        exact ⟨q, List.mem_cons_of_mem _ hq, hrest⟩
      | some fn =>
        dsimp only at h
        by_cases hemp : fn.isEmpty
        · rw [if_pos hemp] at h
          obtain ⟨q, hq, hrest⟩ := ih fs n h
          exact ⟨q, List.mem_cons_of_mem _ hq, hrest⟩
        · rw [if_neg hemp] at h
          by_cases hw : writableName (pathlibName fn)
          · rw [if_pos hw] at h
            by_cases hok : imgOk pl
            · rw [if_pos hok] at h
              simp only at h
              have hn : n = pathlibName fn := (Option.some.inj h).symm
              exact ⟨⟨mt, some fn, pl⟩, List.mem_cons_self _ _, hmt, fn, rfl,
                hn, by rw [hn]; exact hw, hok⟩
            · rw [if_neg hok] at h
              obtain ⟨q, hq, hrest⟩ := ih _ n h
              exact ⟨q, List.mem_cons_of_mem _ hq, hrest⟩
          · rw [if_neg hw] at h
            exact absurd h (by simp)
    · rw [if_neg hmt] at h
      obtain ⟨q, hq, hrest⟩ := ih fs n h
      exact ⟨q, List.mem_cons_of_mem _ hq, hrest⟩

/-- A successful extraction comes from the first image part that
passes verification: everything before it is skipped (non-image or no
usable filename) or failed verification. -/
theorem processImage_first_success (imgOk : List Nat → Bool) :
    ∀ (parts : List MimePart) (fs : List (List Char × List Nat))
      (n : List Char) (fs' : List (List Char × List Nat)),
      processImageAttachment imgOk parts fs = (some n, fs') →
      ∃ pre p post, parts = pre ++ p :: post
        ∧ p.maintype = "image"
        ∧ (∃ fn, p.filename = some fn ∧ fn.isEmpty = false ∧ n = pathlibName fn)
        ∧ imgOk p.payload = true
        ∧ ∀ q ∈ pre, q.maintype = "image" → ∀ g, q.filename = some g →
            g.isEmpty = false →
            writableName (pathlibName g) = true ∧ imgOk q.payload = false := by
  intro parts
  induction parts with
  | nil =>
    intro fs n fs' h
    have h1 := congrArg Prod.fst h
    simp [processImageAttachment] at h1
  | cons p rest ih =>
    intro fs n fs' h
    obtain ⟨mt, fno, pl⟩ := p
    rw [processImage_cons_eq] at h
    by_cases hmt : mt = "image"
    · rw [if_pos hmt] at h
      match fno with
      | none =>
        obtain ⟨pre, q, post, hsplit, hrest⟩ := ih fs n fs' h
        refine ⟨⟨mt, none, pl⟩ :: pre, q, post, by simp [hsplit], hrest.1, hrest.2.1,
          hrest.2.2.1, ?_⟩
        intro r hr hrimg g hg hge
        rcases List.mem_cons.mp hr with h' | h'
        · rw [h'] at hg
          exact absurd hg (by simp)
        · exact hrest.2.2.2 r h' hrimg g hg hge
      | some fn =>
        dsimp only at h
        by_cases hemp : fn.isEmpty
        · rw [if_pos hemp] at h
          obtain ⟨pre, q, post, hsplit, hrest⟩ := ih fs n fs' h
          refine ⟨⟨mt, some fn, pl⟩ :: pre, q, post, by simp [hsplit], hrest.1,
            hrest.2.1, hrest.2.2.1, ?_⟩
          intro r hr hrimg g hg hge
          rcases List.mem_cons.mp hr with h' | h'
          · rw [h'] at hg
            have h2 : fn = g := by simpa using hg
            rw [← h2, hemp] at hge
            exact absurd hge (by simp)
          · exact hrest.2.2.2 r h' hrimg g hg hge
        · rw [if_neg hemp] at h
          by_cases hw : writableName (pathlibName fn)
          · rw [if_pos hw] at h
            by_cases hok : imgOk pl
            · rw [if_pos hok] at h
              refine ⟨[], ⟨mt, some fn, pl⟩, rest, rfl, hmt,
                ⟨fn, rfl, by simpa using hemp, ?_⟩, hok, by simp⟩
              have := congrArg Prod.fst h
              simpa using this.symm
            · rw [if_neg hok] at h
              obtain ⟨pre, q, post, hsplit, hrest⟩ := ih _ n fs' h
              refine ⟨⟨mt, some fn, pl⟩ :: pre, q, post, by simp [hsplit], hrest.1,
                hrest.2.1, hrest.2.2.1, ?_⟩
              intro r hr hrimg g hg hge
              rcases List.mem_cons.mp hr with h' | h'
              · rw [h'] at hg ⊢
                have hgfn : fn = g := by simpa using hg
                rw [← hgfn]
                exact ⟨hw, by simpa using hok⟩
              · exact hrest.2.2.2 r h' hrimg g hg hge
          · rw [if_neg hw] at h
            have := congrArg Prod.fst h
            exact absurd this (by simp)
    · rw [if_neg hmt] at h
      obtain ⟨pre, q, post, hsplit, hrest⟩ := ih fs n fs' h
      refine ⟨⟨mt, fno, pl⟩ :: pre, q, post, by simp [hsplit], hrest.1, hrest.2.1,
        hrest.2.2.1, ?_⟩
      intro r hr hrimg g hg hge
      rcases List.mem_cons.mp hr with h' | h'
      · rw [h'] at hrimg
        exact absurd hrimg hmt
      · exact hrest.2.2.2 r h' hrimg g hg hge

/-- Parts after the first verified image are never examined: appending
further parts to the message does not change a successful outcome. -/
theorem processImage_ignores_after_success (imgOk : List Nat → Bool) :
    ∀ (parts : List MimePart) (fs : List (List Char × List Nat))
      (n : List Char) (fs' : List (List Char × List Nat))
      (extra : List MimePart),
      processImageAttachment imgOk parts fs = (some n, fs') →
      processImageAttachment imgOk (parts ++ extra) fs = (some n, fs') := by
  intro parts
  induction parts with
  | nil =>
    intro fs n fs' extra h
    have h1 := congrArg Prod.fst h
    simp [processImageAttachment] at h1
  | cons p rest ih =>
    intro fs n fs' extra h
    obtain ⟨mt, fno, pl⟩ := p
    rw [processImage_cons_eq] at h
    rw [List.cons_append, processImage_cons_eq]
    by_cases hmt : mt = "image"
    · rw [if_pos hmt] at h ⊢
      match fno with
      | none => exact ih fs n fs' extra h
      | some fn =>
        dsimp only at h ⊢
        by_cases hemp : fn.isEmpty
        · rw [if_pos hemp] at h ⊢
          exact ih fs n fs' extra h
        · rw [if_neg hemp] at h ⊢
          by_cases hw : writableName (pathlibName fn)
          · rw [if_pos hw] at h ⊢
            by_cases hok : imgOk pl
            · rw [if_pos hok] at h ⊢
              exact h
            · rw [if_neg hok] at h ⊢
              exact ih _ n fs' extra h
          · rw [if_neg hw] at h ⊢
            have h1 := congrArg Prod.fst h
            simp at h1
    · rw [if_neg hmt] at h ⊢
      exact ih fs n fs' extra h

/-- On verification failure the freshly written file is deleted and
the walk continues with the remaining parts over the original
directory contents. -/
theorem processImage_failed_verification_deletes (imgOk : List Nat → Bool)
    (mt : String) (fn : List Char) (pl : List Nat) (rest : List MimePart)
    (fs : List (List Char × List Nat))
    (hmt : mt = "image") (hemp : fn.isEmpty = false)
    (hw : writableName (pathlibName fn) = true) (hbad : imgOk pl = false)
    (hfresh : ∀ e ∈ fs, e.1 ≠ pathlibName fn) :
    processImageAttachment imgOk (⟨mt, some fn, pl⟩ :: rest) fs
      = processImageAttachment imgOk rest fs := by
  rw [processImage_cons_eq, if_pos hmt]
  dsimp only
  rw [if_neg (by simp [hemp]), if_pos hw, if_neg (by simp [hbad]),
    fsDelete_fsWrite_fresh hfresh]

/-- If every image part fails verification, no filename is returned. -/
theorem processImage_none_of_all_bad (imgOk : List Nat → Bool) :
    ∀ (parts : List MimePart) (fs : List (List Char × List Nat)),
      (∀ p ∈ parts, p.maintype = "image" → imgOk p.payload = false) →
      (processImageAttachment imgOk parts fs).1 = none := by
  intro parts
  induction parts with
  | nil => intro fs _; rfl
  | cons p rest ih =>
    intro fs hall
    obtain ⟨mt, fno, pl⟩ := p
    have hrest : ∀ p ∈ rest, p.maintype = "image" → imgOk p.payload = false :=
      fun q hq => hall q (List.mem_cons_of_mem _ hq)
    rw [processImage_cons_eq]
    by_cases hmt : mt = "image"
    · rw [if_pos hmt]
      match fno with
      | none => exact ih fs hrest
      | some fn =>
        dsimp only
        by_cases hemp : fn.isEmpty
        · rw [if_pos hemp]
          exact ih fs hrest
        · rw [if_neg hemp]
          by_cases hw : writableName (pathlibName fn)
          · rw [if_pos hw]
            have hbad : imgOk pl = false :=
              hall ⟨mt, some fn, pl⟩ (List.mem_cons_self _ _) hmt
            rw [if_neg (by simp [hbad])]
            exact ih _ hrest
          · rw [if_neg hw]
    · rw [if_neg hmt]
      exact ih fs hrest

/-- C3: the name under which `_process_image_attachment` saves a file
is always the `pathlib` base name of some image part's declared
filename — free of path separators and not a directory reference — so
every write lands inside the configured images directory; in
particular `../../evil.png` is saved as `evil.png`. -/
theorem c3_filename_sanitized (imgOk : List Nat → Bool) (parts : List MimePart)
    (fs : List (List Char × List Nat)) :
    (∀ e ∈ (processImageAttachment imgOk parts fs).2,
      e.1 ∈ fs.map Prod.fst ∨
        ∃ p ∈ parts, p.maintype = "image" ∧ ∃ fn, p.filename = some fn ∧
          e.1 = pathlibName fn ∧ writableName e.1 = true ∧ '/' ∉ e.1)
    ∧ (∀ n, (processImageAttachment imgOk parts fs).1 = some n →
        ∃ p ∈ parts, p.maintype = "image" ∧ ∃ fn, p.filename = some fn ∧
          n = pathlibName fn ∧ writableName n = true ∧ '/' ∉ n)
    ∧ pathlibName ("../../evil.png".toList) = "evil.png".toList := by
  refine ⟨?_, ?_, by decide⟩
  · intro e he
    rcases processImage_names imgOk parts fs e he with h | ⟨p, hp, himg, fn, hfn, hname, hw⟩
    · exact Or.inl h
    · exact Or.inr ⟨p, hp, himg, fn, hfn, hname, by rw [hname]; exact hw,
        by rw [hname]; exact pathlibName_no_slash fn⟩
  · intro n hn
    obtain ⟨p, hp, himg, fn, hfn, hname, hw, hok⟩ := processImage_result imgOk parts fs n hn
    exact ⟨p, hp, himg, fn, hfn, hname, hw, by rw [hname]; exact pathlibName_no_slash fn⟩

/-- A concrete attachment declaring a path-traversal filename. -/
def evilPart : MimePart :=
  { maintype := "image", filename := some ("../../evil.png".toList),
    payload := [1, 2, 3] }

/-- A concrete attachment whose payload fails verification. -/
def badPart : MimePart :=
  { maintype := "image", filename := some ("bad.png".toList), payload := [0] }

/-- A concrete attachment whose payload passes verification. -/
def goodPart : MimePart :=
  { maintype := "image", filename := some ("good.png".toList), payload := [1] }

/-- Witness for C3: a single image part declaring `../../evil.png` is
saved under `evil.png` and the theorem recovers its provenance. -/
theorem c3_filename_sanitized_witness :
    (processImageAttachment (fun _ => true) [evilPart] []).1
        = some ("evil.png".toList)
    ∧ ∃ p ∈ [evilPart], p.maintype = "image"
        ∧ ∃ fn, p.filename = some fn ∧ "evil.png".toList = pathlibName fn
        ∧ writableName ("evil.png".toList) = true ∧ '/' ∉ ("evil.png".toList) := by
  refine ⟨by decide, ?_⟩
  exact (c3_filename_sanitized (fun _ => true) [evilPart] []).2.1
    ("evil.png".toList) (by decide)

/-- C5 counterexample: in a message whose first image part fails
post-write verification and whose second image part passes, the
extraction does NOT fail: it returns the second part's filename (the
failed file is deleted, but the walk continues instead of stopping). -/
theorem c5_counterexample :
    ((fun b => b == [1]) badPart.payload = false)
    ∧ (processImageAttachment (fun b => b == [1]) [badPart, goodPart] []).1
        = some ("good.png".toList)
    ∧ (processImageAttachment (fun b => b == [1]) [badPart, goodPart] []).2
        = [("good.png".toList, [1])] := by
  refine ⟨rfl, by decide, by decide⟩

/-- C5 (amended): on post-write verification failure the file is
deleted and that part yields no filename, but the walk continues with
later image parts; the extracted image, if any, is the first part
passing verification, parts after it are ignored, and only if every
image part fails verification does the extraction return `None`. -/
theorem c5_verification_failure_spec (imgOk : List Nat → Bool)
    (fs : List (List Char × List Nat)) :
    (∀ parts n fs', processImageAttachment imgOk parts fs = (some n, fs') →
      ∃ pre p post, parts = pre ++ p :: post
        ∧ p.maintype = "image"
        ∧ (∃ fn, p.filename = some fn ∧ fn.isEmpty = false ∧ n = pathlibName fn)
        ∧ imgOk p.payload = true
        ∧ ∀ q ∈ pre, q.maintype = "image" → ∀ g, q.filename = some g →
            g.isEmpty = false →
            writableName (pathlibName g) = true ∧ imgOk q.payload = false)
    ∧ (∀ parts n fs' extra, processImageAttachment imgOk parts fs = (some n, fs') →
        processImageAttachment imgOk (parts ++ extra) fs = (some n, fs'))
    ∧ (∀ mt fn pl rest, mt = "image" → fn.isEmpty = false →
        writableName (pathlibName fn) = true → imgOk pl = false →
        (∀ e ∈ fs, e.1 ≠ pathlibName fn) →
        processImageAttachment imgOk (⟨mt, some fn, pl⟩ :: rest) fs
          = processImageAttachment imgOk rest fs)
    ∧ (∀ parts, (∀ p ∈ parts, p.maintype = "image" → imgOk p.payload = false) →
        (processImageAttachment imgOk parts fs).1 = none) := by
  refine ⟨?_, ?_, ?_, ?_⟩
  · intro parts n fs' h
    exact processImage_first_success imgOk parts fs n fs' h
  · intro parts n fs' extra h
    exact processImage_ignores_after_success imgOk parts fs n fs' extra h
  · intro mt fn pl rest hmt hemp hw hbad hfresh
    exact processImage_failed_verification_deletes imgOk mt fn pl rest fs hmt hemp hw hbad hfresh
  · intro parts hall
    exact processImage_none_of_all_bad imgOk parts fs hall

/-- Witness for C5 at a concrete message where every image part fails
verification: the extraction returns `None`. -/
theorem c5_verification_failure_witness :
    (∀ p ∈ [badPart], p.maintype = "image" →
        (fun (_ : List Nat) => false) p.payload = false)
    ∧ (processImageAttachment (fun _ => false) [badPart] []).1 = none := by
  refine ⟨by decide, ?_⟩
  exact (c5_verification_failure_spec (fun _ => false) []).2.2.2 [badPart] (by decide)

/-! ## `EmailChecker` (src/app/email_checker.py)

`_connect_to_mail_server` retries the connection in a
`for attempt in range(MAX_RETRIES)` loop: a transient error
(`socket.gaierror`, `socket.timeout`, `ssl.SSLError`) on a non-final
attempt executes `time.sleep(RETRY_DELAY)` and continues; on the
final attempt it raises `EmailConnectionError`.  The module never
imports `time` at module scope (the only `import time` in the file is
local to `main()`), so the `time.sleep` call raises `NameError`.
Exceptions are embedded explicitly; the outcome of each connection
attempt is a parameter. -/

inductive PyExn where
  | connErr
  | authErr
  | nameErr
  | otherErr
deriving DecidableEq, Repr

inductive AttemptOutcome where
  | success
  | transientErr
  | authFail
deriving DecidableEq, Repr

def MAX_RETRIES : Nat := 3

def RETRY_DELAY : Nat := 5

/-- The `time.sleep(self.RETRY_DELAY)` call: `time` is not bound at
module scope in email_checker.py, so evaluating it raises
`NameError`. -/
def sleepStep : Except PyExn Unit := .error .nameErr

/-- The retry loop of `_connect_to_mail_server`.  Arguments: outcome
of each attempt, remaining loop iterations, current attempt index,
attempts performed so far.  Returns the result together with the
number of attempts actually performed. -/
def connectGo (oc : Nat → AttemptOutcome) : Nat → Nat → Nat → Except PyExn Unit × Nat
  | 0, _, made => (.error .otherErr, made)
  | fuel + 1, i, made =>
    match oc i with
    | .success => (.ok (), made + 1)
    | .authFail => (.error .authErr, made + 1)
    | .transientErr =>
      if i < MAX_RETRIES - 1 then
        match sleepStep with
        | .ok _ => connectGo oc fuel (i + 1) (made + 1)
        | .error e => (.error e, made + 1)
      else (.error .connErr, made + 1)

/-- `EmailChecker._connect_to_mail_server`. -/
def connectToMailServer (oc : Nat → AttemptOutcome) : Except PyExn Unit × Nat :=
  connectGo oc MAX_RETRIES 0 0

/-- The inputs of one `check_for_updates` cycle: the outcome of the
connection phase, of the search phase, the aggregate result of
`_process_messages`, and whether `mail.logout()` succeeds. -/
structure CycleInput where
  connect : Except PyExn Unit
  searchResult : Except PyExn (List Nat)
  processResult : Bool
  logoutOk : Bool
deriving Repr

def logoutStep (ok : Bool) : Except PyExn Unit :=
  if ok then .ok () else .error .otherErr

/-- The `finally` block: `if mail:` then `try: mail.logout() except
Exception: log`. -/
def finallyLogout (opened ok : Bool) : Except PyExn Unit :=
  if opened then
    match logoutStep ok with
    | .ok _ => .ok ()
    | .error _ => .ok ()
  else .ok ()

/-- `EmailChecker.check_for_updates`: the `try` body, the three
`except` clauses (each returning `False`), and the `finally` block.
The second component records whether a logout was attempted (i.e.
whether `mail` had been assigned a session). -/
def checkForUpdates (inp : CycleInput) : Except PyExn Bool × Bool :=
  let body : Except PyExn Bool :=
    match inp.connect with
    | .error e => .error e
    | .ok _ =>
      match inp.searchResult with
      | .error e => .error e
      | .ok msgs => if msgs.isEmpty then .ok true else .ok inp.processResult
  let handled : Except PyExn Bool :=
    match body with
    | .ok b => .ok b
    | .error _ => .ok false
  let opened : Bool :=
    match inp.connect with
    | .ok _ => true
    | .error _ => false
  match finallyLogout opened inp.logoutOk with
  | .ok _ => (handled, opened)
  | .error e => (.error e, opened)

/-- A concrete cycle in which the connection phase raised `NameError`
(the missing `time` import) before a session was assigned. -/
def cycleAfterNameErr : CycleInput where
  connect := .error .nameErr
  searchResult := .ok []
  processResult := true
  logoutOk := true

/-- A concrete successful cycle whose logout fails. -/
def cycleLogoutFails : CycleInput where
  connect := .ok ()
  searchResult := .ok [2]
  processResult := true
  logoutOk := false

/-- C4: the claim says that with a transient network error on every
attempt, `connect` makes 3 attempts with a 5-second delay between
them and then fails with `ConnectionError`.  The code instead raises
`NameError` from `time.sleep` (missing module-level `import time`)
after the first failed attempt: only one attempt is made and
`EmailConnectionError` is never raised.  `check_for_updates` still
returns `False` (the generic `except Exception` catches the
`NameError`), so the process does not crash. -/
theorem c4_missing_time_import_bug :
    connectToMailServer (fun _ => .transientErr) = (.error .nameErr, 1)
    ∧ PyExn.nameErr ≠ PyExn.connErr
    ∧ (1 : Nat) ≠ MAX_RETRIES
    ∧ (checkForUpdates cycleAfterNameErr).1 = .ok false := by
  refine ⟨rfl, by decide, by decide, rfl⟩

/-- C7: on every exit path of a polling cycle, `check_for_updates`
returns a boolean (no exception escapes); a logout is attempted
exactly when the connection phase produced a session; and a failing
logout never changes the returned value. -/
theorem c7_session_cleanup (inp : CycleInput) :
    (∃ b, (checkForUpdates inp).1 = Except.ok b)
    ∧ ((checkForUpdates inp).2 = true ↔ ∃ u, inp.connect = Except.ok u)
    ∧ (∀ lo, (checkForUpdates { inp with logoutOk := lo }).1 = (checkForUpdates inp).1) := by
  obtain ⟨conn, search, proc, lo⟩ := inp
  refine ⟨?_, ?_, ?_⟩
  · match conn with
    | .error e => exact ⟨false, by cases search <;> simp [checkForUpdates, finallyLogout, logoutStep]⟩
    | .ok _ =>
      match search with
      | .error e =>
        refine ⟨false, ?_⟩
        cases lo <;> simp [checkForUpdates, finallyLogout, logoutStep]
      | .ok msgs =>
        match hm : msgs.isEmpty with
        | true =>
          exact ⟨true, by cases lo <;>
            simp [checkForUpdates, finallyLogout, logoutStep, hm]⟩
        | false =>
          exact ⟨proc, by cases lo <;>
            simp [checkForUpdates, finallyLogout, logoutStep, hm]⟩
  · match conn with
    | .error e =>
      simp [checkForUpdates, finallyLogout, logoutStep]
    | .ok _ =>
      cases lo <;> simp [checkForUpdates, finallyLogout, logoutStep]
  · intro lo'
    match conn with
    | .error e => cases lo <;> cases lo' <;> rfl
    | .ok _ => cases lo <;> cases lo' <;> rfl

/-- Witness for C7 at a concrete cycle whose logout fails: the cycle
still returns `ok`. -/
theorem c7_session_cleanup_witness :
    (∃ b, (checkForUpdates cycleLogoutFails).1 = Except.ok b)
    ∧ ((checkForUpdates cycleLogoutFails).2 = true) := by
  refine ⟨(c7_session_cleanup cycleLogoutFails).1, ?_⟩
  exact (c7_session_cleanup cycleLogoutFails).2.1.mpr ⟨(), rfl⟩

/-! ## `EmailChecker._process_messages`

A fetched message is embedded as its (raw) subject header together
with the result its handler would return; `_process_messages` reads
`message.get('subject', '').strip()`, dispatches on the two literal
subjects, flips the running `success` flag on a handler failure, and
ignores other subjects (`continue`). -/

structure FetchedMsg where
  subjectRaw : String
  textOk : Bool
  cardOk : Bool
deriving DecidableEq, Repr

/-- Python `str.strip()` on a `String`. -/
def pyStripStr (s : String) : String :=
  ⟨pyStrip s.toList⟩

/-- `EmailChecker._process_messages`, batch result only. -/
def processMessages (msgs : List FetchedMsg) : Bool :=
  msgs.foldl (fun success m =>
    let subject := pyStripStr m.subjectRaw
    if subject = "Text Update" then success && m.textOk
    else if subject = "Card Update" then success && m.cardOk
    else success) true

/-- The contribution of a single message to the batch flag. -/
def msgOutcome (m : FetchedMsg) : Bool :=
  if pyStripStr m.subjectRaw = "Text Update" then m.textOk
  else if pyStripStr m.subjectRaw = "Card Update" then m.cardOk
  else true

theorem processMessages_foldl (msgs : List FetchedMsg) :
    ∀ acc : Bool,
      msgs.foldl (fun success m =>
        let subject := pyStripStr m.subjectRaw
        if subject = "Text Update" then success && m.textOk
        else if subject = "Card Update" then success && m.cardOk
        else success) acc = (acc && msgs.all msgOutcome) := by
  induction msgs with
  | nil => intro acc; simp
  | cons m rest ih =>
    intro acc
    simp only [List.foldl_cons, List.all_cons]
    rw [ih]
    by_cases ht : pyStripStr m.subjectRaw = "Text Update"
    · simp [msgOutcome, ht, Bool.and_assoc]
    · by_cases hc : pyStripStr m.subjectRaw = "Card Update"
      · simp [msgOutcome, ht, hc, Bool.and_assoc]
      · simp [msgOutcome, ht, hc]

/-- C6: the batch result of `_process_messages` is `True` iff every
message whose stripped subject is `Text Update` or `Card Update` was
processed successfully; messages with any other subject do not affect
the batch result. -/
theorem c6_batch_success_iff (msgs : List FetchedMsg) :
    processMessages msgs = true ↔
      ∀ m ∈ msgs, (pyStripStr m.subjectRaw = "Text Update" → m.textOk = true)
        ∧ (pyStripStr m.subjectRaw = "Card Update" → m.cardOk = true) := by
  unfold processMessages
  rw [processMessages_foldl msgs true, Bool.true_and, List.all_eq_true]
  constructor
  · intro h m hm
    have ho := h m hm
    unfold msgOutcome at ho
    constructor
    · intro ht
      rwa [if_pos ht] at ho
    · intro hc
      by_cases ht : pyStripStr m.subjectRaw = "Text Update"
      · rw [ht] at hc
        exact absurd hc (by decide)
      · rwa [if_neg ht, if_pos hc] at ho
  · intro h m hm
    unfold msgOutcome
    by_cases ht : pyStripStr m.subjectRaw = "Text Update"
    · rw [if_pos ht]
      exact (h m hm).1 ht
    · rw [if_neg ht]
      by_cases hc : pyStripStr m.subjectRaw = "Card Update"
      · rw [if_pos hc]
        exact (h m hm).2 hc
      · rw [if_neg hc]

/-- Witness for C6: a batch holding one successful text update and one
unrecognized-subject message with failing handler flags still reports
success. -/
theorem c6_batch_success_iff_witness :
    processMessages [⟨"Text Update", true, false⟩, ⟨"Team lunch", false, false⟩]
      = true := by
  exact (c6_batch_success_iff
    [⟨"Text Update", true, false⟩, ⟨"Team lunch", false, false⟩]).mpr (by decide)

/-! ## Page rendering (src/app/webpage.py `update_webpage`,
src/signboard.py `EmailSignboard.update_webpage`)

`WebpageManager.update_webpage` builds `updates_html` by iterating
`for update in updates[:max_posts]` and appending one post block per
update; `EmailSignboard.update_webpage` passes
`new_posts[:self.config.max_posts]` to the template.  The post block
is the f-string from webpage.py with the interpolations made
explicit (insignificant indentation whitespace is kept as written). -/

structure UpdateEntry where
  content : String
  timestamp : String
deriving DecidableEq, Repr

/-- One `<div class="post">` block of `updates_html`. -/
def renderPostBlock (u : UpdateEntry) : String :=
  "\n                    <div class=\"post\">\n                        <div class=\"content\">\n                            "
    ++ u.content
    ++ "\n                        </div>\n                        <div class=\"timestamp\">\n                            Posted: "
    ++ u.timestamp
    ++ "\n                        </div>\n                    </div>\n                "

/-- The `updates_html` accumulation loop of
`WebpageManager.update_webpage`. -/
def buildUpdatesHtml (updates : List UpdateEntry) (maxPosts : Nat) : String :=
  (updates.take maxPosts).foldl (fun acc u => acc ++ renderPostBlock u) ""

/-- The `posts=new_posts[:self.config.max_posts]` argument of
`EmailSignboard.update_webpage`. -/
def signboardRenderedPosts (posts : List UpdateEntry) (maxPosts : Nat) :
    List UpdateEntry :=
  posts.take maxPosts

/-- Concatenation of rendered blocks (specification side). -/
def concatBlocks : List String → String
  | [] => ""
  | s :: rest => s ++ concatBlocks rest

theorem foldl_append_eq_concatBlocks {α : Type} (f : α → String) (l : List α) :
    ∀ acc : String,
      l.foldl (fun a x => a ++ f x) acc = acc ++ concatBlocks (l.map f) := by
  induction l with
  | nil =>
    intro acc
    simp [concatBlocks]
  | cons x rest ih =>
    intro acc
    simp only [List.foldl_cons, List.map_cons, concatBlocks]
    rw [ih (acc ++ f x), String.append_assoc]

/-- C8: rendering with more updates than `max_posts` truncates to
exactly `max_posts` blocks: the generated `updates_html` is the
concatenation of one block per retained update, the retained updates
are the first `max_posts` in their input order (an order-preserving
sublist of the input), the rest are omitted, and the signboard
variant passes the same slice to its template. -/
theorem c8_truncates_to_max (updates : List UpdateEntry) (maxPosts : Nat)
    (h : maxPosts < updates.length) :
    buildUpdatesHtml updates maxPosts
        = concatBlocks ((updates.take maxPosts).map renderPostBlock)
    ∧ (updates.take maxPosts).length = maxPosts
    ∧ (updates.take maxPosts).Sublist updates
    ∧ updates.take maxPosts ++ updates.drop maxPosts = updates
    ∧ signboardRenderedPosts updates maxPosts = updates.take maxPosts := by
  refine ⟨?_, ?_, List.take_sublist _ _, List.take_append_drop _ _, rfl⟩
  · rw [buildUpdatesHtml, foldl_append_eq_concatBlocks renderPostBlock _ ""]
    simp
  · rw [List.length_take]
    omega

/-- Witness for C8: three updates and `max_posts = 2` keep the first
two in order. -/
theorem c8_truncates_to_max_witness :
    (2 < ([⟨"a", "t1"⟩, ⟨"b", "t2"⟩, ⟨"c", "t3"⟩] : List UpdateEntry).length)
    ∧ (([⟨"a", "t1"⟩, ⟨"b", "t2"⟩, ⟨"c", "t3"⟩] : List UpdateEntry).take 2).length = 2 := by
  refine ⟨by decide, ?_⟩
  exact (c8_truncates_to_max [⟨"a", "t1"⟩, ⟨"b", "t2"⟩, ⟨"c", "t3"⟩] 2 (by decide)).2.1

/-! ## Store readers (src/app/updates.py `UpdateManager.load_updates`,
src/app/cards.py `CardManager.load_cards`)

Both readers run entirely inside `try: ... except Exception: return []`.
An absent file or malformed XML makes `ET.parse` raise, embedded as
the `none` file state.  A record element is embedded with one
`Option String` per field: `none` covers both a missing child element
(`find` returns `None`, so `.text` raises `AttributeError`) and an
empty element (`.text` is `None`, so `.lower()`/comparisons raise).
Any such exception aborts the whole read, discarding records already
collected, and yields `[]`.  `datetime.strptime(..., '%Y-%m-%d')` is
abstracted as a validity predicate on the date string (it raises on a
malformed date, which is also caught). -/

structure RawUpdateElem where
  content : Option String
  timestamp : Option String
  active : Option String
deriving DecidableEq, Repr

structure UpdateOut where
  content : String
  timestamp : String
deriving DecidableEq, Repr

structure RawCardElem where
  id : Option String
  title : Option String
  description : Option String
  image : Option String
  created_date : Option String
  active : Option String
deriving DecidableEq, Repr

structure CardOut where
  id : String
  title : String
  description : String
  image_path : String
  created_date : String
  active : Bool
deriving DecidableEq, Repr

/-- ASCII `str.lower()` (sufficient for the comparison with
`'true'`). -/
def pyLowerChar (c : Char) : Char :=
  if 'A' ≤ c ∧ c ≤ 'Z' then Char.ofNat (c.toNat + 32) else c

def pyLower (s : String) : String :=
  ⟨s.toList.map pyLowerChar⟩

/-- `elem.find(tag).text`: raises when the child is missing or
empty. -/
def getText : Option String → Except Unit String
  | none => .error ()
  | some s => .ok s

/-- The record loop of `load_updates`, in the `Except` monad: any
raised exception aborts the whole loop. -/
def loadUpdatesGo : List RawUpdateElem → Except Unit (List UpdateOut)
  | [] => .ok []
  | e :: rest =>
    match getText e.active with
    | .error _ => .error ()
    | .ok act =>
      if pyLower act = "true" then
        match getText e.content, getText e.timestamp with
        | .ok c, .ok t =>
          match loadUpdatesGo rest with
          | .ok l => .ok ({ content := c, timestamp := t } :: l)
          | .error _ => .error ()
        | _, _ => .error ()
      else loadUpdatesGo rest

/-- `UpdateManager.load_updates`: `none` is a missing or unparsable
file; any exception in the loop yields `[]`. -/
def loadUpdates (file : Option (List RawUpdateElem)) : List UpdateOut :=
  match file with
  | none => []
  | some elems =>
    match loadUpdatesGo elems with
    | .ok l => l
    | .error _ => []

/-- The record loop of `load_cards`. -/
def loadCardsGo (parseDate : String → Bool) :
    List RawCardElem → Except Unit (List CardOut)
  | [] => .ok []
  | e :: rest =>
    match getText e.active with
    | .error _ => .error ()
    | .ok act =>
      if pyLower act = "true" then
        match getText e.id, getText e.title, getText e.description,
            getText e.image, getText e.created_date with
        | .ok i, .ok t, .ok d, .ok img, .ok cd =>
          if parseDate cd then
            match loadCardsGo parseDate rest with
            | .ok l =>
              .ok ({ id := i, title := t, description := d, image_path := img,
                     created_date := cd, active := true } :: l)
            | .error _ => .error ()
          else .error ()
        | _, _, _, _, _ => .error ()
      else loadCardsGo parseDate rest

/-- `CardManager.load_cards`. -/
def loadCards (parseDate : String → Bool) (file : Option (List RawCardElem)) :
    List CardOut :=
  match file with
  | none => []
  | some elems =>
    match loadCardsGo parseDate elems with
    | .ok l => l
    | .error _ => []

/-- Whether a record's active flag reads `"true"` case-insensitively. -/
def updActive (e : RawUpdateElem) : Bool :=
  match e.active with
  | some a => pyLower a = "true"
  | none => false

def cardActive (e : RawCardElem) : Bool :=
  match e.active with
  | some a => pyLower a = "true"
  | none => false

/-- A record the loop can traverse without raising. -/
def updWellFormed (e : RawUpdateElem) : Bool :=
  e.active.isSome && (!updActive e || (e.content.isSome && e.timestamp.isSome))

def cardWellFormed (parseDate : String → Bool) (e : RawCardElem) : Bool :=
  e.active.isSome && (!cardActive e ||
    (e.id.isSome && e.title.isSome && e.description.isSome && e.image.isSome
      && (match e.created_date with
          | some cd => parseDate cd
          | none => false)))

/-- The records the spec says a successful read returns: exactly the
active ones, in file order. -/
def activeUpdates (elems : List RawUpdateElem) : List UpdateOut :=
  elems.filterMap (fun e =>
    if updActive e then
      match e.content, e.timestamp with
      | some c, some t => some { content := c, timestamp := t }
      | _, _ => none
    else none)

def activeCards (parseDate : String → Bool) (elems : List RawCardElem) : List CardOut :=
  elems.filterMap (fun e =>
    if cardActive e then
      match e.id, e.title, e.description, e.image, e.created_date with
      | some i, some t, some d, some img, some cd =>
        if parseDate cd then
          some { id := i, title := t, description := d, image_path := img,
                 created_date := cd, active := true }
        else none
      | _, _, _, _, _ => none
    else none)

theorem loadUpdatesGo_ok_of_wf :
    ∀ elems : List RawUpdateElem, elems.all updWellFormed = true →
      loadUpdatesGo elems = .ok (activeUpdates elems) := by
  intro elems
  induction elems with
  | nil => intro _; rfl
  | cons e rest ih =>
    intro h
    simp only [List.all_cons, Bool.and_eq_true] at h
    obtain ⟨he, hrest⟩ := h
    obtain ⟨co, ts, ac⟩ := e
    match ac with
    | none => exact absurd he (by simp [updWellFormed])
    | some a =>
      by_cases hact : pyLower a = "true"
      · have hfields : co.isSome ∧ ts.isSome := by
          unfold updWellFormed updActive at he
          simp only [hact] at he
          simpa using he
        obtain ⟨c, hc⟩ := Option.isSome_iff_exists.mp hfields.1
        obtain ⟨t, ht⟩ := Option.isSome_iff_exists.mp hfields.2
        subst hc ht
        simp [loadUpdatesGo, getText, hact, ih hrest, activeUpdates,
          List.filterMap_cons, updActive]
      · simp [loadUpdatesGo, getText, hact, ih hrest, activeUpdates,
          List.filterMap_cons, updActive]

theorem loadUpdatesGo_error_of_not_wf :
    ∀ elems : List RawUpdateElem, elems.all updWellFormed = false →
      loadUpdatesGo elems = .error () := by
  intro elems
  induction elems with
  | nil => intro h; exact absurd h (by simp)
  | cons e rest ih =>
    intro h
    by_cases he : updWellFormed e = true
    · have hrest : rest.all updWellFormed = false := by
        rw [List.all_cons, he, Bool.true_and] at h
        exact h
      obtain ⟨co, ts, ac⟩ := e
      match ac with
      | none => exact absurd he (by simp [updWellFormed])
      | some a =>
        by_cases hact : pyLower a = "true"
        · have hfields : co.isSome ∧ ts.isSome := by
            unfold updWellFormed updActive at he
            simp only [hact] at he
            simpa using he
          obtain ⟨c, hc⟩ := Option.isSome_iff_exists.mp hfields.1
          obtain ⟨t, ht⟩ := Option.isSome_iff_exists.mp hfields.2
          subst hc ht
          simp [loadUpdatesGo, getText, hact, ih hrest]
        · simp [loadUpdatesGo, getText, hact, ih hrest]
    · have he' : updWellFormed e = false := by simpa using he
      obtain ⟨co, ts, ac⟩ := e
      match ac with
      | none => simp [loadUpdatesGo, getText]
      | some a =>
        have hact : pyLower a = "true" := by
          by_contra hact
          simp [updWellFormed, updActive, hact] at he'
        match co, ts with
        | none, _ => simp [loadUpdatesGo, getText, hact]
        | some c, none => simp [loadUpdatesGo, getText, hact]
        | some c, some t =>
          exfalso
          simp [updWellFormed, updActive, hact] at he'

theorem loadCardsGo_ok_of_wf (parseDate : String → Bool) :
    ∀ elems : List RawCardElem, elems.all (cardWellFormed parseDate) = true →
      loadCardsGo parseDate elems = .ok (activeCards parseDate elems) := by
  intro elems
  induction elems with
  | nil => intro _; rfl
  | cons e rest ih =>
    intro h
    simp only [List.all_cons, Bool.and_eq_true] at h
    obtain ⟨he, hrest⟩ := h
    obtain ⟨ei, et, ed, eim, ecd, ac⟩ := e
    match ac with
    | none => exact absurd he (by simp [cardWellFormed])
    | some a =>
      by_cases hact : pyLower a = "true"
      · match ei, et, ed, eim, ecd with
        | none, _, _, _, _ => exact absurd he (by simp [cardWellFormed, cardActive, hact])
        | some i, none, _, _, _ =>
          exact absurd he (by simp [cardWellFormed, cardActive, hact])
        | some i, some t, none, _, _ =>
          exact absurd he (by simp [cardWellFormed, cardActive, hact])
        | some i, some t, some d, none, _ =>
          exact absurd he (by simp [cardWellFormed, cardActive, hact])
        | some i, some t, some d, some img, none =>
          exact absurd he (by simp [cardWellFormed, cardActive, hact])
        | some i, some t, some d, some img, some cd =>
          by_cases hpd : parseDate cd = true
          · simp [loadCardsGo, getText, hact, hpd, ih hrest, activeCards,
              List.filterMap_cons, cardActive]
          · have hpd' : parseDate cd = false := by simpa using hpd
            exact absurd he (by simp [cardWellFormed, cardActive, hact, hpd'])
      · simp [loadCardsGo, getText, hact, ih hrest, activeCards,
          List.filterMap_cons, cardActive]

theorem loadCardsGo_error_of_not_wf (parseDate : String → Bool) :
    ∀ elems : List RawCardElem, elems.all (cardWellFormed parseDate) = false →
      loadCardsGo parseDate elems = .error () := by
  intro elems
  induction elems with
  | nil => intro h; exact absurd h (by simp)
  | cons e rest ih =>
    intro h
    by_cases he : cardWellFormed parseDate e = true
    · have hrest : rest.all (cardWellFormed parseDate) = false := by
        rw [List.all_cons, he, Bool.true_and] at h
        exact h
      obtain ⟨ei, et, ed, eim, ecd, ac⟩ := e
      match ac with
      | none => exact absurd he (by simp [cardWellFormed])
      | some a =>
        by_cases hact : pyLower a = "true"
        · match ei, et, ed, eim, ecd with
          | none, _, _, _, _ =>
            exact absurd he (by simp [cardWellFormed, cardActive, hact])
          | some i, none, _, _, _ =>
            exact absurd he (by simp [cardWellFormed, cardActive, hact])
          | some i, some t, none, _, _ =>
            exact absurd he (by simp [cardWellFormed, cardActive, hact])
          | some i, some t, some d, none, _ =>
            exact absurd he (by simp [cardWellFormed, cardActive, hact])
          | some i, some t, some d, some img, none =>
            exact absurd he (by simp [cardWellFormed, cardActive, hact])
          | some i, some t, some d, some img, some cd =>
            by_cases hpd : parseDate cd = true
            · simp [loadCardsGo, getText, hact, hpd, ih hrest]
            · have hpd' : parseDate cd = false := by simpa using hpd
              exact absurd he (by simp [cardWellFormed, cardActive, hact, hpd'])
        · simp [loadCardsGo, getText, hact, ih hrest]
    · have he' : cardWellFormed parseDate e = false := by simpa using he
      obtain ⟨ei, et, ed, eim, ecd, ac⟩ := e
      match ac with
      | none => simp [loadCardsGo, getText]
      | some a =>
        have hact : pyLower a = "true" := by
          by_contra hact
          simp [cardWellFormed, cardActive, hact] at he'
        match ei, et, ed, eim, ecd with
        | none, _, _, _, _ => simp [loadCardsGo, getText, hact]
        | some i, none, _, _, _ => simp [loadCardsGo, getText, hact]
        | some i, some t, none, _, _ => simp [loadCardsGo, getText, hact]
        | some i, some t, some d, none, _ => simp [loadCardsGo, getText, hact]
        | some i, some t, some d, some img, none => simp [loadCardsGo, getText, hact]
        | some i, some t, some d, some img, some cd =>
          by_cases hpd : parseDate cd = true
          · exfalso
            simp [cardWellFormed, cardActive, hact, hpd] at he'
          · have hpd' : parseDate cd = false := by simpa using hpd
            simp [loadCardsGo, getText, hact, hpd']

/-- C10: the store readers are total at the public interface: an
absent or unparsable file yields `[]`; a file whose records all parse
yields exactly the records whose `active` field equals `"true"`
case-insensitively, in file order; a file in which some reachable
field is missing (or a card date fails to parse) makes the whole read
yield `[]` — never an exception. -/
theorem c10_load_total (parseDate : String → Bool) :
    (loadUpdates none = [] ∧ loadCards parseDate none = [])
    ∧ (∀ elems, elems.all updWellFormed = true →
        loadUpdates (some elems) = activeUpdates elems)
    ∧ (∀ elems, elems.all updWellFormed = false → loadUpdates (some elems) = [])
    ∧ (∀ elems, elems.all (cardWellFormed parseDate) = true →
        loadCards parseDate (some elems) = activeCards parseDate elems)
    ∧ (∀ elems, elems.all (cardWellFormed parseDate) = false →
        loadCards parseDate (some elems) = []) := by
  refine ⟨⟨rfl, rfl⟩, ?_, ?_, ?_, ?_⟩
  · intro elems h
    simp [loadUpdates, loadUpdatesGo_ok_of_wf elems h]
  · intro elems h
    simp [loadUpdates, loadUpdatesGo_error_of_not_wf elems h]
  · intro elems h
    simp [loadCards, loadCardsGo_ok_of_wf parseDate elems h]
  · intro elems h
    simp [loadCards, loadCardsGo_error_of_not_wf parseDate elems h]

/-- A concrete well-formed updates file: one active record (with an
upper-case flag) and one inactive record. -/
def wfUpdateElems : List RawUpdateElem :=
  [⟨some "hello", some "2024-01-01 00:00:00", some "TRUE"⟩,
   ⟨some "x", some "2024-01-02 00:00:00", some "false"⟩]

/-- Witness for C10: the concrete file loads to exactly its active
record, in order. -/
theorem c10_load_total_witness :
    (wfUpdateElems.all updWellFormed = true)
    ∧ loadUpdates (some wfUpdateElems) = activeUpdates wfUpdateElems
    ∧ activeUpdates wfUpdateElems = [⟨"hello", "2024-01-01 00:00:00"⟩] := by
  refine ⟨by decide, ?_, by decide⟩
  exact (c10_load_total (fun _ => true)).2.1 wfUpdateElems (by decide)

end Signboard
